import Mathlib

/-!
Verification of the mdbabel markdown directive scanner and executor dispatch.

Lines are modelled as `List Char` (Rust byte indices of the ASCII markers
coincide with character indices on the marker positions the code computes).
A Rust `&str` slice whose start exceeds its end aborts the process; this
outcome is modelled explicitly by the `PRes.panicked` constructor.
The buffered reader is modelled as a list of read events: each successful
`read_line` call pops one chunk, reading past the end yields a zero-length
read, and an `ioErr` event makes the read fail.
-/

set_option maxRecDepth 4000

/-- Characters of a string literal. -/
def chars (s : String) : List Char := s.data

/-- Result of running code that may abort the process. -/
inductive PRes (α : Type) where
  | panicked : PRes α
  | ok (val : α) : PRes α
  deriving DecidableEq, Repr

/-- Rust literal `DIRECTIVE_PREFIX = "mdbabel"`. -/
def directiveLit : List Char := chars "mdbabel"

/-- Rust literal `CODEBLOCK_NAME_PARAMETER = ":name"`. -/
def nameParamLit : List Char := chars ":name"

/-- Opening comment marker searched for by `parse_comment_from_line`. -/
def commentOpen : List Char := chars "<!--"

/-- Closing comment marker searched for by `parse_comment_from_line`. -/
def commentClose : List Char := chars "-->"

/-- The three-character fence marker. -/
def fenceMarker : List Char := chars "```"

/-- Rust `str::find`: index of the first occurrence of `pat`, if any. -/
def findSub (pat : List Char) : List Char → Option Nat
  | [] => if pat.isPrefixOf ([] : List Char) then some 0 else none
  | c :: rest =>
    if pat.isPrefixOf (c :: rest) then some 0
    else (findSub pat rest).map (· + 1)

/-- Rust `str::trim`: drop whitespace from both ends. -/
def trimChars (l : List Char) : List Char :=
  ((l.dropWhile Char.isWhitespace).reverse.dropWhile Char.isWhitespace).reverse

/-- Embedding of `parse_comment_from_line`.  The Rust code slices
`line[(beg_idx + 4)..end_idx]` without comparing the two indices; when
`beg_idx + 4 > end_idx` that slice aborts the process, which is the
`PRes.panicked` outcome here. -/
def parse_comment_from_line (line : List Char) : PRes (Option (List Char)) :=
  match findSub commentOpen line, findSub commentClose line with
  | some beg, some e =>
    if beg + 4 ≤ e then
      .ok (some (trimChars ((line.drop (beg + 4)).take (e - (beg + 4)))))
    else .panicked
  | _, _ => .ok none

/-- Embedding of `parse_lang_from_code_block_del`. -/
def parse_lang_from_code_block_del (line : List Char) : Option (List Char) :=
  match findSub fenceMarker line with
  | some n => if n + 3 < line.length then some (trimChars (line.drop (n + 3))) else none
  | none => none

/-- Embedding of `is_code_block_del`. -/
def is_code_block_del (line : List Char) : Bool :=
  fenceMarker.isPrefixOf line

/-- Rust `char::is_ascii_whitespace`. -/
def isAsciiWhitespace (c : Char) : Bool :=
  c == ' ' || c == '\t' || c == '\n' || c == '\x0C' || c == '\r'

/-- Accumulator worker for `splitAsciiWhitespace`. -/
def splitAWAux : List Char → List Char → List (List Char)
  | cur, [] => if cur.isEmpty then [] else [cur.reverse]
  | cur, c :: rest =>
    if isAsciiWhitespace c then
      if cur.isEmpty then splitAWAux [] rest
      else cur.reverse :: splitAWAux [] rest
    else splitAWAux (c :: cur) rest

/-- Rust `str::split_ascii_whitespace`: maximal non-whitespace runs, in order,
with empty pieces skipped. -/
def splitAsciiWhitespace (l : List Char) : List (List Char) :=
  splitAWAux [] l

/-- Header of a code block directive. -/
structure CodeBlockHeader where
  name : List Char
  deriving DecidableEq, Repr

/-- Embedding of `CodeBlockHeader::from_comment_contents`; all the Rust error
returns are collapsed to `none` (their messages are not observable to the
directive stream). -/
def from_comment_contents (content : List Char) : Option CodeBlockHeader :=
  match splitAsciiWhitespace content with
  | [] => none
  | t1 :: rest =>
    if t1 ≠ directiveLit then none
    else
      match rest with
      | t2 :: rest2 =>
        if t2 = nameParamLit then
          match rest2 with
          | t3 :: _ => some { name := t3 }
          | [] => none
        else none
      | [] => none

/-- Contents of a code block. -/
structure CodeBlockBody where
  lang : Option (List Char)
  code : List Char
  deriving DecidableEq, Repr

/-- An mdbabel directive parsed from a document. -/
inductive Directive where
  | CodeBlock (header : CodeBlockHeader) (body : CodeBlockBody)
  deriving DecidableEq, Repr

/-- Events produced by the underlying reader: a successful `read_line`
pops one chunk, an `ioErr` event makes the read return an error.  Reading
an exhausted list models `read_line` returning zero bytes. -/
inductive ReadEv where
  | ioErr : ReadEv
  | chunk (l : List Char) : ReadEv
  deriving DecidableEq, Repr

/-- The reader state of a `Document`. -/
abbrev InStream := List ReadEv

/-- Error kinds surfaced by the scanner. -/
inductive ReadErr where
  | ioFailure : ReadErr
  | exhausted : ReadErr
  deriving DecidableEq, Repr

/-- Outcome of `read_lines_while`: the process aborted inside the predicate,
the read failed (`anyhow` error), or the first line the predicate rejected
together with the predicate state and the remaining reader. -/
inductive ScanOut (σ : Type) where
  | panicked : ScanOut σ
  | failed (e : ReadErr) (rest : InStream) : ScanOut σ
  | ok (st : σ) (line : List Char) (rest : InStream) : ScanOut σ
  deriving DecidableEq, Repr

/-- The `while predicate(line)` loop of `read_lines_while`: evaluate the
predicate on the current line; while it holds, read the next line, erroring
on a zero-length read.  The predicate is state-passing (the Rust predicate
is an `FnMut` closure) and may abort.  The case split on the pending stream
is hoisted outside the predicate match purely to keep the recursion
structural; the predicate call does not depend on the stream, so the order
of the two matches is immaterial. -/
def read_lines_while_loop (pred : σ → List Char → PRes (σ × Bool)) :
    σ → List Char → InStream → ScanOut σ
  | st, line, [] =>
    match pred st line with
    | .panicked => .panicked
    | .ok (st2, b) => if b then .failed .exhausted [] else .ok st2 line []
  | st, line, .ioErr :: rest =>
    match pred st line with
    | .panicked => .panicked
    | .ok (st2, b) =>
      if b then .failed .ioFailure rest else .ok st2 line (.ioErr :: rest)
  | st, line, .chunk l :: rest =>
    match pred st line with
    | .panicked => .panicked
    | .ok (st2, b) =>
      if b then
        if l.isEmpty then .failed .exhausted rest
        else read_lines_while_loop pred st2 l rest
      else .ok st2 line (.chunk l :: rest)

/-- Embedding of the free function `read_lines_while`: one unchecked first
read, then the loop. -/
def read_lines_while (pred : σ → List Char → PRes (σ × Bool)) (st : σ) :
    InStream → ScanOut σ
  | [] => read_lines_while_loop pred st [] []
  | .ioErr :: rest => .failed .ioFailure rest
  | .chunk l :: rest => read_lines_while_loop pred st l rest

/-- Embedding of `Document::read_next_line` (`read_lines_while(|_| false)`). -/
def read_next_line (s : InStream) : ScanOut Unit :=
  read_lines_while (fun _ _ => .ok ((), false)) () s

/-- `read_lines_while` specialised to a pure (stateless) predicate. -/
def read_lines_while_p (p : List Char → Bool) (s : InStream) : ScanOut Unit :=
  read_lines_while (fun _ l => .ok ((), p l)) () s

/-- The discard predicate of `Document::next`:
`|line| parse_comment_from_line(line).is_none()`. -/
def discard_pred : Unit → List Char → PRes (Unit × Bool)
  | _, line =>
    match parse_comment_from_line line with
    | .panicked => .panicked
    | .ok o => .ok ((), o.isNone)

/-- The body-collecting predicate of `Document::next`; its state is the
`code` string the Rust closure mutates. -/
def code_pred : List Char → List Char → PRes (List Char × Bool)
  | code, line =>
    let isCode := !is_code_block_del line
    .ok (if isCode then code ++ line else code, isCode)

/-- Outcome of one `Document::next` call: abort, `None` (with the reader
state it leaves behind), or a directive plus the remaining reader. -/
inductive NextOut where
  | panicked : NextOut
  | stop (rest : InStream) : NextOut
  | emit (d : Directive) (rest : InStream) : NextOut
  deriving DecidableEq, Repr

/-- Embedding of `<Document as Iterator>::next`. -/
def docNext (s : InStream) : NextOut :=
  match read_lines_while discard_pred () s with
  | .panicked => .panicked
  | .failed _ rest => .stop rest
  | .ok _ line s1 =>
    match parse_comment_from_line line with
    | .panicked => .panicked
    | .ok none => .stop s1
    | .ok (some content) =>
      match from_comment_contents content with
      | none => .stop s1
      | some header =>
        match read_next_line s1 with
        | .panicked => .panicked
        | .failed _ s2 => .stop s2
        | .ok _ line2 s2 =>
          if is_code_block_del line2 then
            match read_lines_while code_pred [] s2 with
            | .panicked => .panicked
            | .failed _ s3 => .stop s3
            | .ok code _ s3 =>
              .emit (.CodeBlock header
                { lang := parse_lang_from_code_block_del line2, code := code }) s3
          else .stop s2

/-- Directives produced by iterating `next` until the first non-`Some`
answer, as the `for` loop in `main` does; `fuel` bounds the number of calls. -/
def collect : Nat → InStream → List Directive
  | 0, _ => []
  | fuel + 1, s =>
    match docNext s with
    | .emit d s2 => d :: collect fuel s2
    | _ => []

/-- Embedding of `LangExecutor` from `executor.rs`. -/
structure LangExecutor where
  program : List Char
  base_args : List (List Char)
  deriving DecidableEq, Repr

/-- A spawned child process: program plus full argument list.  `execute_body`
spawns exactly one such process; the dispatcher result `none` means no
process was spawned and the call returned `Ok(())`. -/
structure Invocation where
  program : List Char
  args : List (List Char)
  deriving DecidableEq, Repr

/-- Embedding of `LangExecutor::execute_body`: the spawned invocation. -/
def execute_body (ex : LangExecutor) (body : CodeBlockBody) : Invocation :=
  { program := ex.program, args := ex.base_args ++ [body.code] }

/-- The executor registry (`Executors` wraps a `HashMap`). -/
abbrev Executors := List (List Char × LangExecutor)

/-- Registry lookup (`HashMap::get`); the default registry has distinct keys,
so association-list lookup is an exact model. -/
def lookupExec : Executors → List Char → Option LangExecutor
  | [], _ => none
  | (k, ex) :: rest, lang => if k = lang then some ex else lookupExec rest lang

/-- Embedding of `Executors::default_executors`. -/
def default_executors : Executors :=
  [ (chars "sh", { program := chars "sh", base_args := [chars "-c"] }),
    (chars "bash", { program := chars "bash", base_args := [chars "-c"] }),
    (chars "shell", { program := chars "sh", base_args := [chars "-c"] }) ]

/-- Embedding of `Executors::execute`: the invocation spawned, if any. -/
def execute (exs : Executors) (body : CodeBlockBody) : Option Invocation :=
  match body.lang with
  | some lang =>
    match lookupExec exs lang with
    | some ex => some (execute_body ex body)
    | none => none
  | none => none

example : parse_comment_from_line (chars "<!-- hello world -->")
    = .ok (some (chars "hello world")) := by decide
example : parse_comment_from_line (chars "abc <!-- hello world -->")
    = .ok (some (chars "hello world")) := by decide
example : parse_comment_from_line (chars "<!---->") = .ok (some []) := by decide
example : parse_comment_from_line (chars "# hello world") = .ok none := by decide
example : parse_lang_from_code_block_del (chars "```") = none := by decide
example : parse_lang_from_code_block_del (chars "```bash") = some (chars "bash") := by decide
example : parse_lang_from_code_block_del (chars "``` sh") = some (chars "sh") := by decide
example : from_comment_contents (chars "mdbabel :name test-block")
    = some { name := chars "test-block" } := by decide

example : parse_comment_from_line (chars "--> <!--") = .panicked := by decide
example : parse_comment_from_line (chars "<!-->") = .panicked := by decide
example : findSub commentOpen (chars "<!-->") = some 0 := by decide
example : findSub commentClose (chars "<!-->") = some 2 := by decide
example : parse_lang_from_code_block_del (chars "``` ") = some [] := by decide
example : read_next_line ([] : InStream) = .ok () [] [] := by decide
example :
    docNext [ReadEv.chunk (chars "# Document\n"), ReadEv.chunk (chars "\n"),
      ReadEv.chunk (chars "Some text\n"), ReadEv.chunk (chars "\n"),
      ReadEv.chunk (chars "<!-- mdbabel :name test-block -->\n"),
      ReadEv.chunk (chars "```sh\n"), ReadEv.chunk (chars "echo hello\n"),
      ReadEv.chunk (chars "```\n"), ReadEv.chunk (chars "\n"),
      ReadEv.chunk (chars "More text.\n")]
    = .emit (.CodeBlock { name := chars "test-block" }
        { lang := some (chars "sh"), code := chars "echo hello\n" })
        [ReadEv.chunk (chars "\n"), ReadEv.chunk (chars "More text.\n")] := by decide

theorem isPrefixOf_nil_eq_false (pat : List Char) (hp : pat ≠ []) :
    pat.isPrefixOf ([] : List Char) = false := by
  cases pat with
  | nil => simp at hp
  | cons c p => rfl

theorem findSub_eq_some_iff (pat : List Char) (hp : pat ≠ []) (l : List Char) :
    ∀ i : Nat,
      findSub pat l = some i ↔
        pat.isPrefixOf (l.drop i) = true ∧
          ∀ j, j < i → pat.isPrefixOf (l.drop j) = false := by
  induction l with
  | nil =>
    intro i
    simp [findSub, isPrefixOf_nil_eq_false pat hp]
  | cons c r ih =>
    intro i
    by_cases hpre : pat.isPrefixOf (c :: r) = true
    · cases i with
      | zero => simp [findSub, hpre]
      | succ k =>
        rw [show findSub pat (c :: r) = some 0 from by simp [findSub, hpre]]
        constructor
        · intro h; simp at h
        · rintro ⟨-, hall⟩
          have h0 := hall 0 (Nat.succ_pos k)
          simp [hpre] at h0
    · rw [Bool.not_eq_true] at hpre
      rw [show findSub pat (c :: r) = (findSub pat r).map (· + 1) from by
        simp [findSub, hpre]]
      cases i with
      | zero =>
        simp only [Option.map_eq_some']
        constructor
        · rintro ⟨a, -, hak⟩; omega
        · rintro ⟨h1, -⟩
          rw [List.drop_zero] at h1
          rw [hpre] at h1
          exact absurd h1 (by simp)
      | succ k =>
        constructor
        · intro h
          rcases Option.map_eq_some'.1 h with ⟨a, ha, hak⟩
          have hak2 : a = k := by omega
          rw [hak2] at ha
          rcases (ih k).1 ha with ⟨h1, h2⟩
          refine ⟨by simpa using h1, ?_⟩
          intro j hj
          cases j with
          | zero => simpa using hpre
          | succ j2 => simpa using h2 j2 (by omega)
        · rintro ⟨h1, h2⟩
          have hr : findSub pat r = some k := by
            apply (ih k).2
            refine ⟨by simpa using h1, ?_⟩
            intro j hj
            simpa using h2 (j + 1) (by omega)
          rw [hr]; rfl

/-- C1: for every line that does not contain both an opening and a closing
comment marker with the opening strictly before the closing, the claim says
`parse_comment_from_line` terminates normally with the `None` signal.  The
code instead aborts: on the line `--> <!--` both markers are present, the
first opening marker is at index 4 and the first closing marker at index 0,
and the unchecked slice `line[8..0]` makes the process abort rather than
return `None`. -/
theorem parse_comment_reversed_markers_panic :
    parse_comment_from_line (chars "--> <!--") = .panicked ∧
    findSub commentOpen (chars "--> <!--") = some 4 ∧
    findSub commentClose (chars "--> <!--") = some 0 := by decide

/-- C8 counterexample: on the line `<!-->` the first opening marker is at
index 0 and the first closing marker at index 2, so the closing index is
strictly greater than the opening index, yet `parse_comment_from_line`
aborts (the markers overlap, and the slice `line[4..2]` is reversed)
instead of returning the trimmed text between the markers. -/
theorem comment_overlap_panics :
    findSub commentOpen (chars "<!-->") = some 0 ∧
    findSub commentClose (chars "<!-->") = some 2 ∧
    parse_comment_from_line (chars "<!-->") = .panicked := by decide

/-- C8 amended: for every line whose first occurrence of the opening marker
is at index `i` and whose first occurrence of the closing marker is at index
`j`, where the closing marker starts at or after the end of the opening
marker (`i + 4 ≤ j`, rather than merely `j > i`), `parse_comment_from_line`
returns the trimmed substring strictly between the two markers, considering
only that first marker pair. -/
theorem comment_first_pair_trimmed (line : List Char) (i j : Nat)
    (hopen : commentOpen.isPrefixOf (line.drop i) = true)
    (hopenFirst : ∀ k, k < i → commentOpen.isPrefixOf (line.drop k) = false)
    (hclose : commentClose.isPrefixOf (line.drop j) = true)
    (hcloseFirst : ∀ k, k < j → commentClose.isPrefixOf (line.drop k) = false)
    (hij : i + 4 ≤ j) :
    parse_comment_from_line line
      = .ok (some (trimChars ((line.drop (i + 4)).take (j - (i + 4))))) := by
  have h1 : findSub commentOpen line = some i :=
    (findSub_eq_some_iff commentOpen (by decide) line i).2 ⟨hopen, hopenFirst⟩
  have h2 : findSub commentClose line = some j :=
    (findSub_eq_some_iff commentClose (by decide) line j).2 ⟨hclose, hcloseFirst⟩
  rw [parse_comment_from_line, h1, h2]
  simp [hij]

/-- Witness for `comment_first_pair_trimmed` at the line `abc <!-- x --> def`
(first opening marker at 4, first closing marker at 11). -/
theorem comment_first_pair_trimmed_witness :
    commentOpen.isPrefixOf ((chars "abc <!-- x --> def").drop 4) = true ∧
    parse_comment_from_line (chars "abc <!-- x --> def") = .ok (some (chars "x")) := by
  refine ⟨by decide, ?_⟩
  have h := comment_first_pair_trimmed (chars "abc <!-- x --> def") 4 11
    (by decide) (by decide) (by decide) (by decide) (by decide)
  rw [h]
  decide

/-- C3 counterexample: the claim says a trailer consisting only of
whitespace yields no language tag, but on the line made of the fence marker
followed by one space the code returns `Some ""` (the trimmed trailer),
not `None`. -/
theorem fence_lang_whitespace_trailer_not_none :
    parse_lang_from_code_block_del (chars "``` ") = some [] ∧
    (chars "``` ").drop 3 = [' '] ∧
    (' ').isWhitespace = true ∧
    some ([] : List Char) ≠ none := by decide

/-- Helper: trimming a list of whitespace characters yields the empty list. -/
theorem trimChars_of_all_whitespace (t : List Char)
    (h : ∀ c ∈ t, c.isWhitespace = true) : trimChars t = [] := by
  unfold trimChars
  rw [List.dropWhile_eq_nil_iff.2 h]
  rfl

/-- C3 amended: a line is a fence delimiter iff it starts with the
three-character marker; for every opening fence line the parsed language
tag is the trimmed trailer after the marker when the trailer is nonempty,
and no tag is produced exactly when the trailer is empty — an all-whitespace
nonempty trailer yields the empty-string tag `some ""` rather than none. -/
theorem fence_detection_and_lang :
    (∀ line : List Char, is_code_block_del line = true ↔ fenceMarker.isPrefixOf line = true) ∧
    (∀ line : List Char, fenceMarker.isPrefixOf line = true →
      parse_lang_from_code_block_del line
        = if 3 < line.length then some (trimChars (line.drop 3)) else none) ∧
    (∀ t : List Char, (∀ c ∈ t, c.isWhitespace = true) →
      parse_lang_from_code_block_del (fenceMarker ++ t)
        = if t.isEmpty then none else some []) := by
  have key : ∀ line : List Char, fenceMarker.isPrefixOf line = true →
      parse_lang_from_code_block_del line
        = if 3 < line.length then some (trimChars (line.drop 3)) else none := by
    intro line hpre
    have hfind : findSub fenceMarker line = some 0 := by
      cases line with
      | nil => rw [isPrefixOf_nil_eq_false fenceMarker (by decide)] at hpre; simp at hpre
      | cons c r => simp [findSub, hpre]
    rw [parse_lang_from_code_block_del, hfind]
  refine ⟨fun line => Iff.rfl, key, ?_⟩
  intro t hws
  have hpre : fenceMarker.isPrefixOf (fenceMarker ++ t) = true :=
    List.isPrefixOf_iff_prefix.2 (List.prefix_append _ _)
  rw [key _ hpre]
  have hdrop : (fenceMarker ++ t).drop 3 = t := List.drop_left' (by decide)
  have hlen : (fenceMarker ++ t).length = 3 + t.length := by
    simp only [List.length_append]
    rfl
  rw [hdrop, hlen, trimChars_of_all_whitespace t hws]
  cases t with
  | nil => norm_num
  | cons c r => simp [List.isEmpty]

/-- Witness for `fence_detection_and_lang` at the test lines of the repo. -/
theorem fence_detection_and_lang_witness :
    parse_lang_from_code_block_del (chars "```bash") = some (chars "bash") ∧
    parse_lang_from_code_block_del (fenceMarker ++ [' ']) = some [] := by
  constructor
  · have h := fence_detection_and_lang.2.1 (chars "```bash") (by decide)
    rw [h]; decide
  · have h := fence_detection_and_lang.2.2 [' '] (by decide)
    rw [h]; decide

/-- C7: resolution and dispatch against the default registry.  A `bash` tag
invokes the program `bash`, the aliases `sh` and `shell` both invoke the
program `sh`, each with base argument `-c` followed by the code string as
the final argument; an absent or unregistered tag spawns no process (the
dispatcher answers `none`, which is the `Ok(())`-without-spawn outcome). -/
theorem dispatch_resolution (body : CodeBlockBody) :
    (body.lang = some (chars "bash") → execute default_executors body
        = some { program := chars "bash", args := [chars "-c", body.code] }) ∧
    ((body.lang = some (chars "sh") ∨ body.lang = some (chars "shell")) →
      execute default_executors body
        = some { program := chars "sh", args := [chars "-c", body.code] }) ∧
    (body.lang = none → execute default_executors body = none) ∧
    (∀ tag, body.lang = some tag → lookupExec default_executors tag = none →
      execute default_executors body = none) ∧
    (∀ tag ex, body.lang = some tag → lookupExec default_executors tag = some ex →
      execute default_executors body
        = some { program := ex.program, args := ex.base_args ++ [body.code] }) := by
  obtain ⟨lang, code⟩ := body
  refine ⟨?_, ?_, ?_, ?_, ?_⟩
  · intro h
    simp only at h
    subst h
    rfl
  · intro h
    rcases h with h | h <;> (simp only at h; subst h; rfl)
  · intro h
    simp only at h
    subst h
    rfl
  · intro tag h hnone
    simp only at h
    subst h
    simp only [execute]
    rw [hnone]
  · intro tag ex h hsome
    simp only at h
    subst h
    simp only [execute]
    rw [hsome]
    rfl

/-- Witness for `dispatch_resolution`: a concrete `bash` block and a
concrete unregistered `python` block. -/
theorem dispatch_resolution_witness :
    execute default_executors { lang := some (chars "bash"), code := chars "x" }
      = some { program := chars "bash", args := [chars "-c", chars "x"] } ∧
    execute default_executors { lang := some (chars "python"), code := chars "x" } = none :=
  ⟨(dispatch_resolution _).1 rfl,
   (dispatch_resolution _).2.2.2.1 (chars "python") rfl (by decide)⟩

/-- C9: header parsing succeeds, with the header name equal to the third
whitespace token taken verbatim, exactly when the first token is `mdbabel`,
the second is `:name`, and a third token exists; any tokens after the name
are ignored.  All other token shapes are parse failures (`none`). -/
theorem header_parse_characterization (content : List Char) (h : CodeBlockHeader) :
    from_comment_contents content = some h ↔
      ∃ rest, splitAsciiWhitespace content
        = directiveLit :: nameParamLit :: h.name :: rest := by
  obtain ⟨nm⟩ := h
  rcases hs : splitAsciiWhitespace content with _ | ⟨t1, _ | ⟨t2, _ | ⟨t3, rest3⟩⟩⟩
  · simp [from_comment_contents, hs]
  · by_cases h1 : t1 = directiveLit <;> simp [from_comment_contents, hs, h1]
  · by_cases h1 : t1 = directiveLit <;>
      by_cases h2 : t2 = nameParamLit <;>
      simp [from_comment_contents, hs, h1, h2]
  · by_cases h1 : t1 = directiveLit <;>
      by_cases h2 : t2 = nameParamLit <;>
      simp [from_comment_contents, hs, h1, h2, CodeBlockHeader.mk.injEq, eq_comm]


/-- C4 counterexample: the claim says end-of-input at the very start of a
skip always fails with `ExhaustedInput`, and that `read_next_line` returns
the next physical line or signals exhaustion.  But the first read of
`read_lines_while` is not checked for a zero-length result, so on an empty
input `read_next_line` (whose predicate rejects every line, in particular
the empty one) returns `Ok("")` instead of an error. -/
theorem read_next_line_empty_input_ok :
    read_next_line ([] : InStream) = .ok () [] [] ∧
    read_lines_while_p (fun _ => false) ([] : InStream) = .ok () [] [] ∧
    (ScanOut.ok () ([] : List Char) ([] : InStream)
      ≠ ScanOut.failed .exhausted []) := by decide

/-- Specification-side description of a skip over a list of physical lines:
drop the lines satisfying `p` and return the first line that does not; when
every line satisfies `p` — or when there are no lines at all but `p` holds
on the empty string produced by the unchecked first read — the skip fails
with `ExhaustedInput`. -/
def skipOut (p : List Char → Bool) (lines : List (List Char)) : ScanOut Unit :=
  match lines.dropWhile p with
  | [] => if lines.isEmpty && !(p []) then .ok () [] [] else .failed .exhausted []
  | l :: rest => .ok () l (rest.map .chunk)

/-- Specification-side description of reading one physical line. -/
def headLineOut : List (List Char) → ScanOut Unit
  | [] => .ok () [] []
  | l :: rest => .ok () l (rest.map .chunk)

theorem read_lines_while_loop_const_false (st : Unit) (line : List Char)
    (s : InStream) :
    read_lines_while_loop (fun _ _ => .ok ((), false)) st line s = .ok st line s := by
  cases s with
  | nil => rfl
  | cons ev rest => cases ev <;> rfl

theorem read_next_line_chunk_cons (l : List Char) (rest : InStream) :
    read_next_line (.chunk l :: rest) = .ok () l rest :=
  read_lines_while_loop_const_false () l rest

theorem read_lines_while_loop_pure (p : List Char → Bool) :
    ∀ lines : List (List Char), (∀ l ∈ lines, l ≠ []) → ∀ line : List Char,
      read_lines_while_loop (fun _ l => .ok ((), p l)) () line (lines.map .chunk)
        = if p line then
            (match lines.dropWhile p with
             | [] => .failed .exhausted []
             | l :: rest => .ok () l (rest.map .chunk))
          else .ok () line (lines.map .chunk) := by
  intro lines
  induction lines with
  | nil =>
    intro _ line
    by_cases hp : p line = true <;> simp [read_lines_while_loop, hp]
  | cons l rest ih =>
    intro hne line
    have hl : l ≠ [] := hne l (by simp)
    have hlempty : l.isEmpty = false := by
      cases l with
      | nil => simp at hl
      | cons c cs => rfl
    have hrest : ∀ x ∈ rest, x ≠ [] := fun x hx => hne x (by simp [hx])
    by_cases hp : p line = true
    · simp only [List.map_cons, read_lines_while_loop, hp, if_true, hlempty,
        Bool.false_eq_true, if_false]
      rw [ih hrest l]
      by_cases hpl : p l = true
      · simp [hpl, List.dropWhile_cons]
      · simp [hpl, List.dropWhile_cons]
    · simp [read_lines_while_loop, hp]

/-- C4 amended: `read_lines_while` discards each line for which the
predicate is true and returns the first line for which it is false; if
end-of-input is reached while the predicate still holds it fails with
`ExhaustedInput`.  At the very start of the skip with no lines left at all,
the unchecked first read produces the empty line: the call fails with
`ExhaustedInput` only when the predicate holds on the empty string, and
otherwise returns the empty string.  Consequently `read_next_line` returns
the next physical line, or the empty string at end of input. -/
theorem read_lines_while_spec (p : List Char → Bool) (lines : List (List Char))
    (hne : ∀ l ∈ lines, l ≠ []) :
    read_lines_while_p p (lines.map .chunk) = skipOut p lines ∧
    read_next_line (lines.map .chunk) = headLineOut lines := by
  constructor
  · cases lines with
    | nil =>
      by_cases hp : p [] = true <;>
        simp [read_lines_while_p, read_lines_while, read_lines_while_loop,
          skipOut, hp]
    | cons l rest =>
      have hrest : ∀ x ∈ rest, x ≠ [] := fun x hx => hne x (by simp [hx])
      show read_lines_while_loop _ () l (rest.map .chunk) = _
      rw [read_lines_while_loop_pure p rest hrest l]
      by_cases hp : p l = true
      · rcases hd : rest.dropWhile p with _ | ⟨x, xs⟩ <;>
          simp [hp, skipOut, List.dropWhile_cons, hd]
      · simp [hp, skipOut, List.dropWhile_cons]
  · cases lines with
    | nil => rfl
    | cons l rest => exact read_next_line_chunk_cons l (rest.map .chunk)

/-- Witness for `read_lines_while_spec`: skip lines until the line `b`. -/
theorem read_lines_while_spec_witness :
    read_lines_while_p (fun l => decide (l ≠ chars "b"))
        ([chars "a", chars "b", chars "c"].map ReadEv.chunk)
      = .ok () (chars "b") [ReadEv.chunk (chars "c")] ∧
    read_next_line ([chars "a", chars "b"].map ReadEv.chunk)
      = .ok () (chars "a") [ReadEv.chunk (chars "b")] := by
  constructor
  · have h := (read_lines_while_spec (fun l => decide (l ≠ chars "b"))
      [chars "a", chars "b", chars "c"] (by decide)).1
    rw [h]
    decide
  · have h := (read_lines_while_spec (fun _ => false)
      [chars "a", chars "b"] (by decide)).2
    rw [h]
    decide

/-- Document whose first directive header is malformed (comment text
`mdbabel` has no `:name` parameter) and which is followed by a well-formed
directive. -/
def resumeDoc : InStream :=
  [ .chunk (chars "<!-- mdbabel -->\n"),
    .chunk (chars "<!-- mdbabel :name good -->\n"),
    .chunk (chars "```sh\n"),
    .chunk (chars "echo hi\n"),
    .chunk (chars "```\n") ]

/-- C10: the iterator is not fused.  On `resumeDoc` the first `next` call
consumes the malformed header line and answers `None`, leaving the reader
just after it; a second `next` call resumes from that position and emits
the following well-formed directive. -/
theorem iterator_not_fused :
    parse_comment_from_line (chars "<!-- mdbabel -->\n")
      = .ok (some (chars "mdbabel")) ∧
    from_comment_contents (chars "mdbabel") = none ∧
    docNext resumeDoc = .stop (resumeDoc.drop 1) ∧
    docNext (resumeDoc.drop 1)
      = .emit (.CodeBlock { name := chars "good" }
          { lang := some (chars "sh"), code := chars "echo hi\n" }) [] := by decide

theorem parse_comment_nil : parse_comment_from_line [] = .ok none := by decide

theorem fence_ne_nil (l : List Char) (h : is_code_block_del l = true) : l ≠ [] := by
  intro hnil
  subst hnil
  exact absurd h (by decide)

theorem discard_pred_true (line : List Char)
    (h : parse_comment_from_line line = .ok none) :
    discard_pred () line = .ok ((), true) := by
  simp [discard_pred, h]

theorem discard_pred_false (line c : List Char)
    (h : parse_comment_from_line line = .ok (some c)) :
    discard_pred () line = .ok ((), false) := by
  simp [discard_pred, h]

theorem read_lines_while_loop_pred_false {σ : Type}
    (pred : σ → List Char → PRes (σ × Bool)) (st st2 : σ) (line : List Char)
    (s : InStream) (h : pred st line = .ok (st2, false)) :
    read_lines_while_loop pred st line s = .ok st2 line s := by
  cases s with
  | nil => simp [read_lines_while_loop, h]
  | cons ev rest => cases ev <;> simp [read_lines_while_loop, h]

theorem seek_loop_skips :
    ∀ filler : List (List Char),
      (∀ l ∈ filler, l ≠ [] ∧ parse_comment_from_line l = .ok none) →
      ∀ (line tgt : List Char) (s : InStream),
        parse_comment_from_line line = .ok none → tgt ≠ [] →
        read_lines_while_loop discard_pred () line
            (filler.map .chunk ++ .chunk tgt :: s)
          = read_lines_while_loop discard_pred () tgt s := by
  intro filler
  induction filler with
  | nil =>
    intro _ line tgt s hline htgt
    have hempty : tgt.isEmpty = false := by
      cases tgt with
      | nil => simp at htgt
      | cons c cs => rfl
    simp [read_lines_while_loop, discard_pred_true line hline, hempty]
  | cons f fs ih =>
    intro hf line tgt s hline htgt
    obtain ⟨hfne, hfparse⟩ := hf f (by simp)
    have hfempty : f.isEmpty = false := by
      cases f with
      | nil => simp at hfne
      | cons c cs => rfl
    have hfs : ∀ l ∈ fs, l ≠ [] ∧ parse_comment_from_line l = .ok none :=
      fun l hl => hf l (by simp [hl])
    have hstep : read_lines_while_loop discard_pred () line
        (.chunk f :: (fs.map .chunk ++ .chunk tgt :: s))
        = read_lines_while_loop discard_pred () f (fs.map .chunk ++ .chunk tgt :: s) := by
      simp [read_lines_while_loop, discard_pred_true line hline, hfempty]
    simp only [List.map_cons, List.cons_append]
    rw [hstep]
    exact ih hfs f tgt s hfparse htgt

theorem seek_ok (filler : List (List Char))
    (hf : ∀ l ∈ filler, l ≠ [] ∧ parse_comment_from_line l = .ok none)
    (tgt c : List Char) (htgt : parse_comment_from_line tgt = .ok (some c))
    (s : InStream) :
    read_lines_while discard_pred () (filler.map .chunk ++ .chunk tgt :: s)
      = .ok () tgt s := by
  have htne : tgt ≠ [] := by
    intro hnil
    rw [hnil, parse_comment_nil] at htgt
    simp at htgt
  cases filler with
  | nil =>
    show read_lines_while_loop discard_pred () tgt s = _
    exact read_lines_while_loop_pred_false _ _ _ _ _ (discard_pred_false tgt c htgt)
  | cons f fs =>
    obtain ⟨hfne, hfparse⟩ := hf f (by simp)
    show read_lines_while_loop discard_pred () f (fs.map .chunk ++ .chunk tgt :: s) = _
    rw [seek_loop_skips fs (fun l hl => hf l (by simp [hl])) f tgt s hfparse htne]
    exact read_lines_while_loop_pred_false _ _ _ _ _ (discard_pred_false tgt c htgt)

theorem seek_loop_exhausts :
    ∀ filler : List (List Char),
      (∀ l ∈ filler, l ≠ [] ∧ parse_comment_from_line l = .ok none) →
      ∀ line : List Char, parse_comment_from_line line = .ok none →
        read_lines_while_loop discard_pred () line (filler.map .chunk)
          = .failed .exhausted [] := by
  intro filler
  induction filler with
  | nil =>
    intro _ line hline
    simp [read_lines_while_loop, discard_pred_true line hline]
  | cons f fs ih =>
    intro hf line hline
    obtain ⟨hfne, hfparse⟩ := hf f (by simp)
    have hfempty : f.isEmpty = false := by
      cases f with
      | nil => simp at hfne
      | cons c cs => rfl
    have hstep : read_lines_while_loop discard_pred () line (.chunk f :: fs.map .chunk)
        = read_lines_while_loop discard_pred () f (fs.map .chunk) := by
      simp [read_lines_while_loop, discard_pred_true line hline, hfempty]
    simp only [List.map_cons]
    rw [hstep]
    exact ih (fun l hl => hf l (by simp [hl])) f hfparse

theorem seek_exhausts (filler : List (List Char))
    (hf : ∀ l ∈ filler, l ≠ [] ∧ parse_comment_from_line l = .ok none) :
    read_lines_while discard_pred () (filler.map .chunk) = .failed .exhausted [] := by
  cases filler with
  | nil =>
    show read_lines_while_loop discard_pred () [] [] = _
    simp [read_lines_while_loop, discard_pred_true [] parse_comment_nil]
  | cons f fs =>
    obtain ⟨hfne, hfparse⟩ := hf f (by simp)
    show read_lines_while_loop discard_pred () f (fs.map .chunk) = _
    exact seek_loop_exhausts fs (fun l hl => hf l (by simp [hl])) f hfparse

theorem collect_loop :
    ∀ body : List (List Char),
      (∀ l ∈ body, l ≠ [] ∧ is_code_block_del l = false) →
      ∀ (acc line close : List Char) (s : InStream),
        is_code_block_del line = false → is_code_block_del close = true →
        read_lines_while_loop code_pred acc line
            (body.map .chunk ++ .chunk close :: s)
          = .ok ((acc ++ line) ++ body.flatten) close s := by
  intro body
  induction body with
  | nil =>
    intro _ acc line close s hline hclose
    have hcempty : close.isEmpty = false := by
      have := fence_ne_nil close hclose
      cases close with
      | nil => simp at this
      | cons c cs => rfl
    have hstep : read_lines_while_loop code_pred acc line
        ([] ++ .chunk close :: s)
        = read_lines_while_loop code_pred (acc ++ line) close s := by
      simp [read_lines_while_loop, code_pred, hline, hcempty]
    rw [List.map_nil] at *
    rw [hstep, read_lines_while_loop_pred_false code_pred (acc ++ line) (acc ++ line)
      close s (by simp [code_pred, hclose])]
    simp
  | cons l1 rest ih =>
    intro hb acc line close s hline hclose
    obtain ⟨hne1, hcode1⟩ := hb l1 (by simp)
    have hempty1 : l1.isEmpty = false := by
      cases l1 with
      | nil => simp at hne1
      | cons c cs => rfl
    have hstep : read_lines_while_loop code_pred acc line
        (.chunk l1 :: (rest.map .chunk ++ .chunk close :: s))
        = read_lines_while_loop code_pred (acc ++ line) l1
            (rest.map .chunk ++ .chunk close :: s) := by
      simp [read_lines_while_loop, code_pred, hline, hempty1]
    simp only [List.map_cons, List.cons_append]
    rw [hstep, ih (fun l hl => hb l (by simp [hl])) (acc ++ line) l1 close s hcode1 hclose]
    simp [List.append_assoc]

theorem collect_body_ok (body : List (List Char))
    (hb : ∀ l ∈ body, l ≠ [] ∧ is_code_block_del l = false)
    (close : List Char) (hclose : is_code_block_del close = true) (s : InStream) :
    read_lines_while code_pred [] (body.map .chunk ++ .chunk close :: s)
      = .ok body.flatten close s := by
  cases body with
  | nil =>
    show read_lines_while_loop code_pred [] close s = _
    rw [read_lines_while_loop_pred_false code_pred [] [] close s
      (by simp [code_pred, hclose])]
    simp
  | cons l1 rest =>
    obtain ⟨hne1, hcode1⟩ := hb l1 (by simp)
    show read_lines_while_loop code_pred [] l1
        (rest.map .chunk ++ .chunk close :: s) = _
    rw [collect_loop rest (fun l hl => hb l (by simp [hl])) [] l1 close s hcode1 hclose]
    simp

/-- Raw lines of one candidate directive inside a document: filler lines
before the header comment, the header line, the opening fence line, the
body lines and the closing fence line. -/
structure DirBlock where
  filler : List (List Char)
  headerLine : List Char
  fenceLine : List Char
  bodyLines : List (List Char)
  closeLine : List Char

/-- The reader events of one directive block. -/
def blockStream (b : DirBlock) : InStream :=
  b.filler.map .chunk ++ .chunk b.headerLine ::
    (.chunk b.fenceLine :: (b.bodyLines.map .chunk ++ [.chunk b.closeLine]))

/-- The header parsed from a block's header line, if any. -/
def headerResult (b : DirBlock) : Option CodeBlockHeader :=
  match parse_comment_from_line b.headerLine with
  | .ok (some c) => from_comment_contents c
  | _ => none

/-- The directive a well-formed block denotes. -/
def dirOf (b : DirBlock) : Option Directive :=
  (headerResult b).map fun h =>
    .CodeBlock h { lang := parse_lang_from_code_block_del b.fenceLine,
                   code := b.bodyLines.flatten }

/-- A block is well formed when its filler lines are nonempty non-comments,
its header line is a comment whose text parses to a header, its fence lines
are fence delimiters, and its body lines are nonempty non-fence lines. -/
def WfBlock (b : DirBlock) : Prop :=
  (∀ l ∈ b.filler, l ≠ [] ∧ parse_comment_from_line l = .ok none) ∧
  (headerResult b).isSome = true ∧
  is_code_block_del b.fenceLine = true ∧
  (∀ l ∈ b.bodyLines, l ≠ [] ∧ is_code_block_del l = false) ∧
  is_code_block_del b.closeLine = true

instance (b : DirBlock) : Decidable (WfBlock b) := by
  unfold WfBlock
  infer_instance

theorem docNext_block (b : DirBlock) (hwf : WfBlock b) (h : CodeBlockHeader)
    (hh : headerResult b = some h) (rest : InStream) :
    docNext (blockStream b ++ rest)
      = .emit (.CodeBlock h
          { lang := parse_lang_from_code_block_del b.fenceLine,
            code := b.bodyLines.flatten }) rest := by
  obtain ⟨hfill, hhsome, hfence, hbody, hclose⟩ := hwf
  have hparse : ∃ c, parse_comment_from_line b.headerLine = .ok (some c) ∧
      from_comment_contents c = some h := by
    unfold headerResult at hh
    rcases hp : parse_comment_from_line b.headerLine with _ | o
    · rw [hp] at hh
      simp at hh
    · rcases o with _ | c
      · rw [hp] at hh
        simp at hh
      · rw [hp] at hh
        exact ⟨c, rfl, hh⟩
  obtain ⟨c, hpc, hfc⟩ := hparse
  have hstream : blockStream b ++ rest
      = b.filler.map .chunk ++ .chunk b.headerLine ::
          (.chunk b.fenceLine ::
            (b.bodyLines.map .chunk ++ .chunk b.closeLine :: rest)) := by
    simp [blockStream]
  unfold docNext
  rw [hstream, seek_ok b.filler hfill b.headerLine c hpc _]
  simp only [hpc, hfc, read_next_line_chunk_cons, hfence, if_true]
  rw [collect_body_ok b.bodyLines hbody b.closeLine hclose rest]

theorem docNext_malformed (filler : List (List Char))
    (hf : ∀ l ∈ filler, l ≠ [] ∧ parse_comment_from_line l = .ok none)
    (bad c : List Char) (hb : parse_comment_from_line bad = .ok (some c))
    (hfail : from_comment_contents c = none) (tail : InStream) :
    docNext (filler.map .chunk ++ .chunk bad :: tail) = .stop tail := by
  unfold docNext
  rw [seek_ok filler hf bad c hb tail]
  simp [hb, hfail]

theorem docNext_missing_fence (filler : List (List Char))
    (hf : ∀ l ∈ filler, l ≠ [] ∧ parse_comment_from_line l = .ok none)
    (hline c : List Char) (hdr : CodeBlockHeader)
    (hp : parse_comment_from_line hline = .ok (some c))
    (hfc : from_comment_contents c = some hdr)
    (l2 : List Char) (hnf : is_code_block_del l2 = false) (tail : InStream) :
    docNext (filler.map .chunk ++ .chunk hline :: .chunk l2 :: tail)
      = .stop tail := by
  unfold docNext
  rw [seek_ok filler hf hline c hp _]
  simp [hp, hfc, read_next_line_chunk_cons, hnf]

theorem docNext_natural_end (filler : List (List Char))
    (hf : ∀ l ∈ filler, l ≠ [] ∧ parse_comment_from_line l = .ok none) :
    docNext (filler.map .chunk) = .stop [] := by
  unfold docNext
  rw [seek_exhausts filler hf]

theorem docNext_io_error (tail : InStream) : docNext (.ioErr :: tail) = .stop tail := rfl

theorem collect_blocks :
    ∀ blocks : List DirBlock, (∀ b ∈ blocks, WfBlock b) →
      ∀ (k : Nat) (tail2 t : InStream), docNext tail2 = .stop t →
        collect (blocks.length + 1 + k) ((blocks.map blockStream).flatten ++ tail2)
          = blocks.filterMap dirOf := by
  intro blocks
  induction blocks with
  | nil =>
    intro _ k tail2 t hstop
    simp only [List.map_nil, List.flatten_nil, List.nil_append, List.length_nil,
      List.filterMap_nil]
    have hfuel : 0 + 1 + k = k + 1 := by omega
    rw [hfuel]
    simp [collect, hstop]
  | cons b bs ih =>
    intro hwf k tail2 t hstop
    have hwb : WfBlock b := hwf b (by simp)
    obtain ⟨h, hh⟩ := Option.isSome_iff_exists.1 hwb.2.1
    have hemit := docNext_block b hwb h hh ((bs.map blockStream).flatten ++ tail2)
    have hfuel : (b :: bs).length + 1 + k = (bs.length + 1 + k) + 1 := by
      simp only [List.length_cons]
      omega
    have hs : ((b :: bs).map blockStream).flatten ++ tail2
        = blockStream b ++ ((bs.map blockStream).flatten ++ tail2) := by
      simp [List.append_assoc]
    rw [hfuel, hs]
    have hdir : dirOf b = some (.CodeBlock h
        { lang := parse_lang_from_code_block_del b.fenceLine,
          code := b.bodyLines.flatten }) := by
      rw [dirOf, hh]
      rfl
    simp only [collect, hemit]
    rw [ih (fun x hx => hwf x (by simp [hx])) k tail2 t hstop]
    simp [List.filterMap_cons, hdir]

/-- C2: every failure path of the directive stream and the natural end of
the document produce the same externally observable answer `None` (`stop`):
clean exhaustion while seeking, an I/O error, and a header followed by a
non-fence line each make `next` answer `stop`; and in a document made of
well-formed directive blocks followed by a malformed header comment, the
`for`-loop iteration emits exactly the directives strictly before the
malformed one, in order, and nothing after it, however much fuel the
iteration is given. -/
theorem directive_stream_failure_collapse :
    (∀ filler : List (List Char),
      (∀ l ∈ filler, l ≠ [] ∧ parse_comment_from_line l = .ok none) →
      docNext (filler.map .chunk) = .stop []) ∧
    (∀ tail : InStream, docNext (.ioErr :: tail) = .stop tail) ∧
    (∀ (hline c : List Char) (hdr : CodeBlockHeader) (l2 : List Char) (tail : InStream),
      parse_comment_from_line hline = .ok (some c) →
      from_comment_contents c = some hdr →
      is_code_block_del l2 = false →
      docNext (.chunk hline :: .chunk l2 :: tail) = .stop tail) ∧
    (∀ (blocks : List DirBlock) (bad c : List Char) (tail : InStream) (k : Nat),
      (∀ b ∈ blocks, WfBlock b) →
      parse_comment_from_line bad = .ok (some c) →
      from_comment_contents c = none →
      collect (blocks.length + 1 + k)
          ((blocks.map blockStream).flatten ++ .chunk bad :: tail)
        = blocks.filterMap dirOf) := by
  refine ⟨docNext_natural_end, docNext_io_error, ?_, ?_⟩
  · intro hline c hdr l2 tail hp hfc hnf
    have h := docNext_missing_fence [] (by simp) hline c hdr hp hfc l2 hnf tail
    simpa using h
  · intro blocks bad c tail k hwf hb hfail
    have hstop : docNext (.chunk bad :: tail) = .stop tail := by
      have h := docNext_malformed [] (by simp) bad c hb hfail tail
      simpa using h
    exact collect_blocks blocks hwf k (.chunk bad :: tail) tail hstop

/-- A concrete well-formed block used by witnesses. -/
def exampleBlock : DirBlock :=
  { filler := [chars "text\n"],
    headerLine := chars "<!-- mdbabel :name one -->\n",
    fenceLine := chars "```sh\n",
    bodyLines := [chars "echo one\n"],
    closeLine := chars "```\n" }

/-- Witness for `directive_stream_failure_collapse` on concrete documents. -/
theorem directive_stream_failure_collapse_witness :
    docNext ([chars "plain\n"].map ReadEv.chunk) = .stop [] ∧
    docNext (.ioErr :: ([] : InStream)) = .stop [] ∧
    docNext [.chunk (chars "<!-- mdbabel :name x -->\n"), .chunk (chars "\n")]
      = .stop [] ∧
    collect ([exampleBlock].length + 1 + 0)
        (([exampleBlock].map blockStream).flatten
          ++ .chunk (chars "<!-- bad -->\n") :: ([] : InStream))
      = [exampleBlock].filterMap dirOf :=
  ⟨directive_stream_failure_collapse.1 [chars "plain\n"] (by decide),
   directive_stream_failure_collapse.2.1 [],
   directive_stream_failure_collapse.2.2.1 (chars "<!-- mdbabel :name x -->\n")
     (chars "mdbabel :name x") { name := chars "x" } (chars "\n") []
     (by decide) (by decide) (by decide),
   directive_stream_failure_collapse.2.2.2 [exampleBlock]
     (chars "<!-- bad -->\n") (chars "bad") [] 0
     (by decide) (by decide) (by decide)⟩

theorem seek_loop_inv :
    ∀ (s : InStream) (line lineF : List Char) (rest : InStream),
      read_lines_while_loop discard_pred () line s = .ok () lineF rest →
      ∃ pre : List (List Char),
        ReadEv.chunk line :: s = pre.map ReadEv.chunk ++ .chunk lineF :: rest ∧
        (∀ l ∈ pre, parse_comment_from_line l = .ok none) ∧
        ∃ c, parse_comment_from_line lineF = .ok (some c) := by
  intro s
  induction s with
  | nil =>
    intro line lineF rest h
    rcases hp : parse_comment_from_line line with _ | o
    · simp [read_lines_while_loop, discard_pred, hp] at h
    · rcases o with _ | c
      · simp [read_lines_while_loop, discard_pred, hp] at h
      · simp [read_lines_while_loop, discard_pred, hp] at h
        obtain ⟨h1, h2⟩ := h
        subst h1
        subst h2
        exact ⟨[], by simp, by simp, c, hp⟩
  | cons ev s2 ih =>
    intro line lineF rest h
    cases ev with
    | ioErr =>
      rcases hp : parse_comment_from_line line with _ | o
      · simp [read_lines_while_loop, discard_pred, hp] at h
      · rcases o with _ | c
        · simp [read_lines_while_loop, discard_pred, hp] at h
        · simp [read_lines_while_loop, discard_pred, hp] at h
          obtain ⟨h1, h2⟩ := h
          subst h1
          subst h2
          exact ⟨[], by simp, by simp, c, hp⟩
    | chunk l =>
      rcases hp : parse_comment_from_line line with _ | o
      · simp [read_lines_while_loop, discard_pred, hp] at h
      · rcases o with _ | c
        · by_cases hle : l.isEmpty = true
          · simp [read_lines_while_loop, discard_pred, hp, hle] at h
          · rw [Bool.not_eq_true] at hle
            have h2 : read_lines_while_loop discard_pred () l s2 = .ok () lineF rest := by
              simpa [read_lines_while_loop, discard_pred, hp, hle] using h
            obtain ⟨pre2, heq, hall, c, hc⟩ := ih l lineF rest h2
            refine ⟨line :: pre2, ?_, ?_, c, hc⟩
            · simp only [List.map_cons, List.cons_append]
              rw [heq]
            · intro x hx
              rcases List.mem_cons.1 hx with hx | hx
              · rw [hx]; exact hp
              · exact hall x hx
        · simp [read_lines_while_loop, discard_pred, hp] at h
          obtain ⟨h1, h2⟩ := h
          subst h1
          subst h2
          exact ⟨[], by simp, by simp, c, hp⟩

theorem seek_inv (s : InStream) (lineF : List Char) (rest : InStream)
    (h : read_lines_while discard_pred () s = .ok () lineF rest) :
    ∃ pre : List (List Char),
      s = pre.map ReadEv.chunk ++ .chunk lineF :: rest ∧
      (∀ l ∈ pre, parse_comment_from_line l = .ok none) ∧
      ∃ c, parse_comment_from_line lineF = .ok (some c) := by
  cases s with
  | nil =>
    simp [read_lines_while, read_lines_while_loop, discard_pred, parse_comment_nil] at h
  | cons ev s2 =>
    cases ev with
    | ioErr => simp [read_lines_while] at h
    | chunk l =>
      obtain ⟨pre, heq, hall, hc⟩ := seek_loop_inv s2 l lineF rest h
      exact ⟨pre, heq, hall, hc⟩

theorem read_next_line_inv (s : InStream) (l : List Char) (rest : InStream)
    (h : read_next_line s = .ok () l rest) :
    s = .chunk l :: rest ∨ (s = [] ∧ l = [] ∧ rest = []) := by
  cases s with
  | nil =>
    right
    have h0 : read_next_line ([] : InStream) = .ok () [] [] := rfl
    rw [h0] at h
    have h2 : ([] : List Char) = l ∧ ([] : InStream) = rest := by
      simpa using h
    exact ⟨rfl, h2.1.symm, h2.2.symm⟩
  | cons ev s2 =>
    cases ev with
    | ioErr => simp [read_next_line, read_lines_while] at h
    | chunk x =>
      rw [read_next_line_chunk_cons] at h
      left
      have h2 : x = l ∧ s2 = rest := by simpa using h
      rw [h2.1, h2.2]

/-- C6: a directive is emitted only when a valid header comment is followed
on the very next physical line by a fence-open line.  Whenever `next` emits
a directive, the consumed input decomposes into skipped non-comment lines,
a header comment line parsing to the directive's header, and — immediately
next — a fence-delimiter line providing the language tag; and whenever the
line immediately after a valid header (a blank line included) is not a
fence delimiter, `next` answers `stop` and emits nothing. -/
theorem directive_requires_immediate_fence :
    (∀ (s : InStream) (d : Directive) (s2 : InStream),
      docNext s = .emit d s2 →
      ∃ (pre : List (List Char)) (hl c fl : List Char) (rest : InStream)
        (hdr : CodeBlockHeader) (bd : CodeBlockBody),
        d = .CodeBlock hdr bd ∧
        s = pre.map ReadEv.chunk ++ .chunk hl :: .chunk fl :: rest ∧
        (∀ l ∈ pre, parse_comment_from_line l = .ok none) ∧
        parse_comment_from_line hl = .ok (some c) ∧
        from_comment_contents c = some hdr ∧
        is_code_block_del fl = true ∧
        bd.lang = parse_lang_from_code_block_del fl) ∧
    (∀ (hline c : List Char) (hdr : CodeBlockHeader) (l2 : List Char) (tail : InStream),
      parse_comment_from_line hline = .ok (some c) →
      from_comment_contents c = some hdr →
      is_code_block_del l2 = false →
      docNext (.chunk hline :: .chunk l2 :: tail) = .stop tail) := by
  constructor
  · intro s d s2 h
    rcases hseek : read_lines_while discard_pred () s with _ | ⟨e, r⟩ | ⟨st, line, s1⟩
    · have hcalc : docNext s = .panicked := by
        unfold docNext
        rw [hseek]
      rw [hcalc] at h
      simp at h
    · have hcalc : docNext s = .stop r := by
        unfold docNext
        rw [hseek]
      rw [hcalc] at h
      simp at h
    · cases st
      obtain ⟨pre, heqs, hall, c, hc⟩ := seek_inv s line s1 hseek
      rcases hfc : from_comment_contents c with _ | hdr
      · have hcalc : docNext s = .stop s1 := by
          unfold docNext
          rw [hseek]
          simp [hc, hfc]
        rw [hcalc] at h
        simp at h
      · rcases hrn : read_next_line s1 with _ | ⟨e2, r2⟩ | ⟨st2, line2, s2x⟩
        · have hcalc : docNext s = .panicked := by
            unfold docNext
            rw [hseek]
            simp [hc, hfc, hrn]
          rw [hcalc] at h
          simp at h
        · have hcalc : docNext s = .stop r2 := by
            unfold docNext
            rw [hseek]
            simp [hc, hfc, hrn]
          rw [hcalc] at h
          simp at h
        · cases st2
          by_cases hfence : is_code_block_del line2 = true
          · rcases hcb : read_lines_while code_pred [] s2x with _ | ⟨e3, r3⟩ | ⟨code, lineC, s3⟩
            · have hcalc : docNext s = .panicked := by
                unfold docNext
                rw [hseek]
                simp [hc, hfc, hrn, hfence, hcb]
              rw [hcalc] at h
              simp at h
            · have hcalc : docNext s = .stop r3 := by
                unfold docNext
                rw [hseek]
                simp [hc, hfc, hrn, hfence, hcb]
              rw [hcalc] at h
              simp at h
            · have hcalc : docNext s = .emit (.CodeBlock hdr
                  { lang := parse_lang_from_code_block_del line2, code := code }) s3 := by
                unfold docNext
                rw [hseek]
                simp [hc, hfc, hrn, hfence, hcb]
              rw [hcalc] at h
              obtain ⟨hd1, hd2⟩ := NextOut.emit.inj h
              rcases read_next_line_inv s1 line2 s2x hrn with hs1 | ⟨hs1, hl2, hs2x⟩
              · refine ⟨pre, line, c, line2, s2x, hdr,
                  { lang := parse_lang_from_code_block_del line2, code := code },
                  hd1.symm, ?_, hall, hc, hfc, hfence, rfl⟩
                rw [heqs, hs1]
              · rw [hl2] at hfence
                exact absurd hfence (by decide)
          · have hcalc : docNext s = .stop s2x := by
              unfold docNext
              rw [hseek]
              simp [hc, hfc, hrn, hfence]
            rw [hcalc] at h
            simp at h
  · intro hline c hdr l2 tail hp hfc hnf
    have h := docNext_missing_fence [] (by simp) hline c hdr hp hfc l2 hnf tail
    simpa using h

/-- Witness for `directive_requires_immediate_fence` on concrete documents:
one emitting document, and one where a blank line follows the header. -/
theorem directive_requires_immediate_fence_witness :
    (∃ (pre : List (List Char)) (hl c fl : List Char) (rest : InStream)
        (hdr : CodeBlockHeader) (bd : CodeBlockBody),
        Directive.CodeBlock { name := chars "w" }
            { lang := some (chars "sh"), code := chars "pwd\n" } = .CodeBlock hdr bd ∧
        ([.chunk (chars "<!-- mdbabel :name w -->\n"), .chunk (chars "```sh\n"),
            .chunk (chars "pwd\n"), .chunk (chars "```\n")] : InStream)
          = pre.map ReadEv.chunk ++ .chunk hl :: .chunk fl :: rest ∧
        (∀ l ∈ pre, parse_comment_from_line l = .ok none) ∧
        parse_comment_from_line hl = .ok (some c) ∧
        from_comment_contents c = some hdr ∧
        is_code_block_del fl = true ∧
        bd.lang = parse_lang_from_code_block_del fl) ∧
    docNext [.chunk (chars "<!-- mdbabel :name w -->\n"), .chunk (chars "\n")]
      = .stop [] :=
  ⟨directive_requires_immediate_fence.1
      [.chunk (chars "<!-- mdbabel :name w -->\n"), .chunk (chars "```sh\n"),
        .chunk (chars "pwd\n"), .chunk (chars "```\n")]
      (Directive.CodeBlock { name := chars "w" }
        { lang := some (chars "sh"), code := chars "pwd\n" }) [] (by decide),
   directive_requires_immediate_fence.2 (chars "<!-- mdbabel :name w -->\n")
     (chars "mdbabel :name w") { name := chars "w" } (chars "\n") []
     (by decide) (by decide) (by decide)⟩

theorem collect_loop_inv :
    ∀ (s : InStream) (acc line code cl : List Char) (rest : InStream),
      read_lines_while_loop code_pred acc line s = .ok code cl rest →
      ∃ body : List (List Char),
        ReadEv.chunk line :: s = body.map ReadEv.chunk ++ .chunk cl :: rest ∧
        code = acc ++ body.flatten ∧
        (∀ l ∈ body, is_code_block_del l = false) ∧
        is_code_block_del cl = true := by
  intro s
  induction s with
  | nil =>
    intro acc line code cl rest h
    by_cases hf : is_code_block_del line = true
    · have hred : read_lines_while_loop code_pred acc line [] = .ok acc line [] := by
        simp [read_lines_while_loop, code_pred, hf]
      rw [hred] at h
      obtain ⟨h1, h2, h3⟩ := ScanOut.ok.inj h
      subst h1
      subst h2
      subst h3
      exact ⟨[], by simp, by simp, by simp, hf⟩
    · rw [Bool.not_eq_true] at hf
      simp [read_lines_while_loop, code_pred, hf] at h
  | cons ev s2 ih =>
    intro acc line code cl rest h
    cases ev with
    | ioErr =>
      by_cases hf : is_code_block_del line = true
      · have hred : read_lines_while_loop code_pred acc line (.ioErr :: s2)
            = .ok acc line (.ioErr :: s2) := by
          simp [read_lines_while_loop, code_pred, hf]
        rw [hred] at h
        obtain ⟨h1, h2, h3⟩ := ScanOut.ok.inj h
        subst h1
        subst h2
        subst h3
        exact ⟨[], by simp, by simp, by simp, hf⟩
      · rw [Bool.not_eq_true] at hf
        simp [read_lines_while_loop, code_pred, hf] at h
    | chunk l =>
      by_cases hf : is_code_block_del line = true
      · have hred : read_lines_while_loop code_pred acc line (.chunk l :: s2)
            = .ok acc line (.chunk l :: s2) := by
          simp [read_lines_while_loop, code_pred, hf]
        rw [hred] at h
        obtain ⟨h1, h2, h3⟩ := ScanOut.ok.inj h
        subst h1
        subst h2
        subst h3
        exact ⟨[], by simp, by simp, by simp, hf⟩
      · rw [Bool.not_eq_true] at hf
        by_cases hle : l.isEmpty = true
        · simp [read_lines_while_loop, code_pred, hf, hle] at h
        · rw [Bool.not_eq_true] at hle
          have h2 : read_lines_while_loop code_pred (acc ++ line) l s2
              = .ok code cl rest := by
            simpa [read_lines_while_loop, code_pred, hf, hle] using h
          obtain ⟨body2, heq, hcode, hbody, hcl⟩ := ih (acc ++ line) l code cl rest h2
          refine ⟨line :: body2, ?_, ?_, ?_, hcl⟩
          · simp only [List.map_cons, List.cons_append]
            rw [heq]
          · rw [hcode]
            simp [List.append_assoc]
          · intro x hx
            rcases List.mem_cons.1 hx with hx | hx
            · rw [hx]
              exact hf
            · exact hbody x hx

theorem collect_inv (s : InStream) (code cl : List Char) (rest : InStream)
    (h : read_lines_while code_pred [] s = .ok code cl rest) :
    ∃ body : List (List Char),
      s = body.map ReadEv.chunk ++ .chunk cl :: rest ∧
      code = body.flatten ∧
      (∀ l ∈ body, is_code_block_del l = false) ∧
      is_code_block_del cl = true := by
  cases s with
  | nil =>
    have hnf : is_code_block_del ([] : List Char) = false := by decide
    simp [read_lines_while, read_lines_while_loop, code_pred, hnf] at h
  | cons ev s2 =>
    cases ev with
    | ioErr => simp [read_lines_while] at h
    | chunk l =>
      obtain ⟨body, heq, hcode, hbody, hcl⟩ := collect_loop_inv s2 [] l code cl rest h
      refine ⟨body, heq, ?_, hbody, hcl⟩
      simpa using hcode

/-- Well-formed reader streams: every successfully read chunk is a physical
line — nonempty, containing a newline only as its final character, and
ending in a newline unless nothing follows it (the reader yields a line
without a trailing newline only immediately before end of input). -/
def WfStream : InStream → Prop
  | [] => True
  | .ioErr :: rest => WfStream rest
  | .chunk l :: rest =>
    (l ≠ [] ∧ '\n' ∉ l.dropLast ∧ (l.getLast? = some '\n' ∨ rest = [])) ∧
      WfStream rest

instance instDecWfStream : (s : InStream) → Decidable (WfStream s)
  | [] => .isTrue trivial
  | .ioErr :: rest => instDecWfStream rest
  | .chunk l :: rest =>
    have : Decidable (WfStream rest) := instDecWfStream rest
    inferInstanceAs (Decidable (_ ∧ WfStream rest))

theorem wfStream_suffix : ∀ s1 s2 : InStream, WfStream (s1 ++ s2) → WfStream s2 := by
  intro s1
  induction s1 with
  | nil => intro s2 h; exact h
  | cons ev rest ih =>
    intro s2 h
    cases ev with
    | ioErr => exact ih s2 h
    | chunk l => exact ih s2 h.2

theorem wf_body_lines :
    ∀ (body : List (List Char)) (tail : InStream),
      WfStream (body.map .chunk ++ tail) → tail ≠ [] →
      ∀ l ∈ body, l ≠ [] ∧ '\n' ∉ l.dropLast ∧ l.getLast? = some '\n' := by
  intro body
  induction body with
  | nil => intro tail _ _ x hx; exact absurd hx (List.not_mem_nil x)
  | cons x body2 ih =>
    intro tail hwf htail l hl
    obtain ⟨⟨hne, hmid, hlast⟩, hrest⟩ := hwf
    rcases List.mem_cons.1 hl with hx | hx
    · subst hx
      refine ⟨hne, hmid, ?_⟩
      rcases hlast with hlast | hlast
      · exact hlast
      · exact absurd hlast (by
          intro hcontra
          rcases List.append_eq_nil.1 hcontra with ⟨-, h2⟩
          exact htail h2)
    · exact ih tail hrest htail l hx

theorem fence_not_prefix_append (l r : List Char)
    (hshape : ∃ l0, l = l0 ++ ['\n'])
    (hnf : is_code_block_del l = false) :
    is_code_block_del (l ++ r) = false := by
  obtain ⟨l0, hl0⟩ := hshape
  by_contra hcontra
  rw [Bool.not_eq_false] at hcontra
  have hp : fenceMarker <+: (l ++ r) := List.isPrefixOf_iff_prefix.1 hcontra
  by_cases hlen : fenceMarker.length ≤ l.length
  · have hpl : fenceMarker <+: l :=
      List.prefix_of_prefix_length_le hp (l.prefix_append r) hlen
    have hnf2 : fenceMarker.isPrefixOf l = false := hnf
    have htrue : fenceMarker.isPrefixOf l = true := List.isPrefixOf_iff_prefix.2 hpl
    rw [hnf2] at htrue
    exact Bool.false_ne_true htrue
  · have hlp : l <+: fenceMarker :=
      List.prefix_of_prefix_length_le (l.prefix_append r) hp (by omega)
    have hmem : '\n' ∈ fenceMarker := hlp.subset (by
      rw [hl0]
      simp)
    exact absurd hmem (by decide)

theorem no_fence_flatten :
    ∀ body : List (List Char),
      (∀ l ∈ body, (∃ l0, l = l0 ++ ['\n'] ∧ '\n' ∉ l0) ∧ is_code_block_del l = false) →
      ∀ u v : List Char, body.flatten = u ++ v →
        (u = [] ∨ ∃ u0, u = u0 ++ ['\n']) → is_code_block_del v = false := by
  intro body
  induction body with
  | nil =>
    intro _ u v hflat hu
    have hv : v = [] := (List.append_eq_nil.1 hflat.symm).2
    rw [hv]
    decide
  | cons l body2 ih =>
    intro hb u v hflat hu
    obtain ⟨⟨l0, hl0, hl0nl⟩, hlnf⟩ := hb l (by simp)
    have hb2 : ∀ x ∈ body2,
        (∃ x0, x = x0 ++ ['\n'] ∧ '\n' ∉ x0) ∧ is_code_block_del x = false :=
      fun x hx => hb x (by simp [hx])
    rw [List.flatten_cons] at hflat
    rcases List.append_eq_append_iff.1 hflat with ⟨w, hw1, hw2⟩ | ⟨w, hw1, hw2⟩
    · -- u = l ++ w and body2.flatten = w ++ v
      rcases hu with hu | ⟨u0, hu0⟩
      · rw [hu] at hw1
        exact absurd hw1.symm (by
          intro hcontra
          rcases List.append_eq_nil.1 hcontra with ⟨hl2, -⟩
          rw [hl0] at hl2
          simp at hl2)
      · by_cases hwnil : w = []
        · subst hwnil
          rw [List.nil_append] at hw2
          exact ih hb2 [] v hw2 (Or.inl rfl)
        · have hwlast : w.getLast? = some '\n' := by
            have h1 : u.getLast? = some '\n' := by
              rw [hu0]
              simp
            rw [hw1, List.getLast?_append_of_ne_nil _ hwnil] at h1
            exact h1
          have hwshape : ∃ w0, w = w0 ++ ['\n'] := by
            refine ⟨w.dropLast, ?_⟩
            have := List.dropLast_append_getLast hwnil
            rw [List.getLast?_eq_getLast w hwnil] at hwlast
            have hlast2 : w.getLast hwnil = '\n' := by
              exact Option.some.inj hwlast
            rw [← hlast2]
            exact this.symm
          exact ih hb2 w v hw2 (Or.inr hwshape)
    · -- l = u ++ w and v = w ++ body2.flatten
      rcases hu with hu | ⟨u0, hu0⟩
      · subst hu
        rw [List.nil_append] at hw1
        subst hw1
        rw [hw2]
        exact fence_not_prefix_append l body2.flatten ⟨l0, hl0⟩ hlnf
      · by_cases hwnil : w = []
        · subst hwnil
          rw [List.append_nil] at hw1
          subst hw1
          rw [hw2, List.nil_append]
          exact ih hb2 [] body2.flatten rfl (Or.inl rfl)
        · -- here u would end in a newline strictly inside l: impossible
          exfalso
          have hupre : u <+: l0 := by
            have h1 : u <+: l := ⟨w, hw1.symm⟩
            have h2 : l0 <+: l := ⟨['\n'], hl0.symm⟩
            refine List.prefix_of_prefix_length_le h1 h2 ?_
            have hlen1 : l.length = l0.length + 1 := by
              rw [hl0]
              simp
            have hlen2 : l.length = u.length + w.length := by
              rw [hw1]
              simp
            have hwpos : 0 < w.length := List.length_pos.2 hwnil
            omega
          have hmem : '\n' ∈ u := by
            rw [hu0]
            simp
          exact hl0nl (hupre.subset hmem)

theorem docNext_emit_inv (s : InStream) (d : Directive) (s2 : InStream)
    (h : docNext s = .emit d s2) :
    ∃ (pre : List (List Char)) (hl c fl : List Char) (body : List (List Char))
      (cl : List Char) (hdr : CodeBlockHeader),
      d = .CodeBlock hdr
        { lang := parse_lang_from_code_block_del fl, code := body.flatten } ∧
      s = pre.map ReadEv.chunk ++ .chunk hl :: .chunk fl ::
            (body.map ReadEv.chunk ++ .chunk cl :: s2) ∧
      (∀ l ∈ pre, parse_comment_from_line l = .ok none) ∧
      parse_comment_from_line hl = .ok (some c) ∧
      from_comment_contents c = some hdr ∧
      is_code_block_del fl = true ∧
      (∀ l ∈ body, is_code_block_del l = false) ∧
      is_code_block_del cl = true := by
  rcases hseek : read_lines_while discard_pred () s with _ | ⟨e, r⟩ | ⟨st, line, s1⟩
  · have hcalc : docNext s = .panicked := by
      unfold docNext
      rw [hseek]
    rw [hcalc] at h
    simp at h
  · have hcalc : docNext s = .stop r := by
      unfold docNext
      rw [hseek]
    rw [hcalc] at h
    simp at h
  · cases st
    obtain ⟨pre, heqs, hall, c, hc⟩ := seek_inv s line s1 hseek
    rcases hfc : from_comment_contents c with _ | hdr
    · have hcalc : docNext s = .stop s1 := by
        unfold docNext
        rw [hseek]
        simp [hc, hfc]
      rw [hcalc] at h
      simp at h
    · rcases hrn : read_next_line s1 with _ | ⟨e2, r2⟩ | ⟨st2, line2, s2x⟩
      · have hcalc : docNext s = .panicked := by
          unfold docNext
          rw [hseek]
          simp [hc, hfc, hrn]
        rw [hcalc] at h
        simp at h
      · have hcalc : docNext s = .stop r2 := by
          unfold docNext
          rw [hseek]
          simp [hc, hfc, hrn]
        rw [hcalc] at h
        simp at h
      · cases st2
        by_cases hfence : is_code_block_del line2 = true
        · rcases hcb : read_lines_while code_pred [] s2x with _ | ⟨e3, r3⟩ | ⟨code, lineC, s3⟩
          · have hcalc : docNext s = .panicked := by
              unfold docNext
              rw [hseek]
              simp [hc, hfc, hrn, hfence, hcb]
            rw [hcalc] at h
            simp at h
          · have hcalc : docNext s = .stop r3 := by
              unfold docNext
              rw [hseek]
              simp [hc, hfc, hrn, hfence, hcb]
            rw [hcalc] at h
            simp at h
          · have hcalc : docNext s = .emit (.CodeBlock hdr
                { lang := parse_lang_from_code_block_del line2, code := code }) s3 := by
              unfold docNext
              rw [hseek]
              simp [hc, hfc, hrn, hfence, hcb]
            rw [hcalc] at h
            obtain ⟨hd1, hd2⟩ := NextOut.emit.inj h
            rcases read_next_line_inv s1 line2 s2x hrn with hs1 | ⟨hs1, hl2, hs2x⟩
            · obtain ⟨body, hbodyeq, hcode, hbody, hcl⟩ :=
                collect_inv s2x code lineC s3 hcb
              refine ⟨pre, line, c, line2, body, lineC, hdr, ?_, ?_, hall, hc, hfc,
                hfence, hbody, hcl⟩
              · rw [← hd1, hcode]
              · rw [heqs, hs1, hbodyeq, hd2]
            · rw [hl2] at hfence
              exact absurd hfence (by decide)
        · have hcalc : docNext s = .stop s2x := by
            unfold docNext
            rw [hseek]
            simp [hc, hfc, hrn, hfence]
          rw [hcalc] at h
          simp at h

/-- The code string contains no fence-delimiter line: no line of `code`
(a segment starting at the beginning or right after a newline) starts with
the fence marker. -/
def NoFenceLine (code : List Char) : Prop :=
  ∀ u v : List Char, code = u ++ v → (u = [] ∨ ∃ u0, u = u0 ++ ['\n']) →
    is_code_block_del v = false

/-- C5: whenever `next` emits a code block from a well-formed reader stream,
the body equals the verbatim newline-preserving concatenation of exactly the
lines strictly between the opening and closing fences; none of those lines
is a fence delimiter, the closing fence line is consumed (it sits in the
input before the leftover stream) but never appended, and no line of the
body string is a fence delimiter. -/
theorem codeblock_body_verbatim (s : InStream) (hwf : WfStream s)
    (hdr : CodeBlockHeader) (bd : CodeBlockBody) (s2 : InStream)
    (h : docNext s = .emit (.CodeBlock hdr bd) s2) :
    ∃ (pre body : List (List Char)) (hl fl cl : List Char),
      s = pre.map ReadEv.chunk ++ .chunk hl :: .chunk fl ::
            (body.map ReadEv.chunk ++ .chunk cl :: s2) ∧
      bd.code = body.flatten ∧
      (∀ l ∈ body, is_code_block_del l = false) ∧
      is_code_block_del cl = true ∧
      NoFenceLine bd.code := by
  obtain ⟨pre, hl, c, fl, body, cl, hdr2, hd, hs, hall, hc, hfc, hfence, hbody, hcl⟩ :=
    docNext_emit_inv s _ s2 h
  obtain ⟨hdr_eq, bd_eq⟩ := Directive.CodeBlock.inj hd
  refine ⟨pre, body, hl, fl, cl, hs, ?_, hbody, hcl, ?_⟩
  · rw [bd_eq]
  · have hsuffix : WfStream (body.map ReadEv.chunk ++ .chunk cl :: s2) := by
      have hsplit2 : s = (pre.map ReadEv.chunk ++ [.chunk hl, .chunk fl])
          ++ (body.map ReadEv.chunk ++ .chunk cl :: s2) := by
        rw [hs]
        simp
      rw [hsplit2] at hwf
      exact wfStream_suffix _ _ hwf
    have hfacts := wf_body_lines body (.chunk cl :: s2) hsuffix (by simp)
    rw [bd_eq]
    intro u v hsplit hu
    refine no_fence_flatten body ?_ u v hsplit hu
    intro l hlmem
    obtain ⟨hne, hmid, hlast⟩ := hfacts l hlmem
    refine ⟨⟨l.dropLast, ?_, hmid⟩, hbody l hlmem⟩
    rw [List.getLast?_eq_getLast l hne] at hlast
    have hdl := List.dropLast_append_getLast hne
    rw [Option.some.inj hlast] at hdl
    exact hdl.symm

/-- Concrete document with a two-line body, used as the C5 witness input. -/
def bodyDoc : InStream :=
  [ .chunk (chars "<!-- mdbabel :name b -->\n"),
    .chunk (chars "```sh\n"),
    .chunk (chars "echo a\n"),
    .chunk (chars "echo b\n"),
    .chunk (chars "```\n") ]

/-- Witness for `codeblock_body_verbatim` at `bodyDoc`. -/
theorem codeblock_body_verbatim_witness :
    ∃ (pre body : List (List Char)) (hl fl cl : List Char),
      bodyDoc = pre.map ReadEv.chunk ++ .chunk hl :: .chunk fl ::
            (body.map ReadEv.chunk ++ .chunk cl :: ([] : InStream)) ∧
      chars "echo a\necho b\n" = body.flatten ∧
      (∀ l ∈ body, is_code_block_del l = false) ∧
      is_code_block_del cl = true ∧
      NoFenceLine (chars "echo a\necho b\n") :=
  codeblock_body_verbatim bodyDoc (by decide) { name := chars "b" }
    { lang := some (chars "sh"), code := chars "echo a\necho b\n" } [] (by decide)
